import Mathlib

/-!
# Shallow embedding of the string FIFO from FaizAther/fifo

The repository contains two completed variants of the same ring-buffer C
file, and the frozen claims cite both.  We therefore model both over a
single state type:

* namespace `F1` — the variant that provides `fifo_filled` and whose
  `fifo_push` returns the free-slot count `size - fifo_filled(fifo)`;
* namespace `F2` — the variant headed "Modified: Ather, Faiz", whose
  `fifo_push` returns a 0/1 space flag, whose `fifo_new` sets
  `empty = (size > 0) ? 1 : 0`, and whose `fifo_push` checks the result of
  `calloc` for the string copy.

Modelling decisions, each forced by the C source:
* C `int` fields `size`, `produce`, `consume` hold only small non-negative
  values in every state reachable through the API (they start at 0 and are
  only ever advanced modulo `size`), so they are modelled as `Nat`;
  returned counts are modelled as `Int` because the C functions return
  `int` and `fifo_filled` computes with signed subtraction.
* The `empty` field only ever holds 0 or 1 in the C code, so it is
  modelled as `Bool` (`true` = 1).
* The slot array `char *contents[]` is a list of `capacity` optional
  strings; `NULL` is `none`.
* A stored string is a freshly `calloc`ed byte-for-byte copy
  (`strlen(str) + 1` bytes, so including the terminator); under value
  semantics the copy is the value itself.
* `F2.fifo_push` takes an `allocOk` oracle for the `calloc` of the string
  copy, because that code path tests `str_cpy == NULL`.  `F1.fifo_push`
  does not test the result of `calloc`, so `F1` models the
  successful-allocation behaviour only.
* `F2.fifo_free` is instrumented: it returns the list of slot indices it
  releases, in order, and returns `none` if the C loop would perform a
  modulo by zero (`(curr + 1) % size` with `size == 0`) or read a slot
  outside `[0, size)` — both undefined behaviour in the C program.
-/

structure Fifo where
  size : Nat
  empty : Bool
  produce : Nat
  consume : Nat
  contents : List (Option String)
  deriving DecidableEq

/-- Number of populated (non-`NULL`) slots: the spec's "occupancy", the
count of live strings actually present in the slot array. -/
def countSome : List (Option String) → Nat
  | [] => 0
  | a :: t => (if a.isSome then 1 else 0) + countSome t

/-- Occupancy of a buffer, by scanning the slot array. -/
def liveCount (f : Fifo) : Nat := countSome f.contents

/-- The ring-buffer occupancy formula, as a `Nat` (used by the invariant;
`F1.fifo_filled` below is the verbatim `int`-valued C function). -/
def filledN (f : Fifo) : Nat :=
  if f.consume < f.produce then f.produce - f.consume
  else if f.produce < f.consume then f.size - f.consume + f.produce
  else if f.empty then 0 else f.size

/-- The state mutation both variants perform on a successful push:
`contents[produce] = copy; produce = (produce + 1) % size; empty = 0`. -/
def pushedState (f : Fifo) (v : String) : Fifo :=
  { f with contents := f.contents.set f.produce (some v),
           produce := (f.produce + 1) % f.size,
           empty := false }

/-- The state mutation both variants perform on a successful pull:
`contents[consume] = NULL; consume = (consume + 1) % size;
if (consume == produce) empty = 1`. -/
def pulledState (f : Fifo) : Fifo :=
  { f with contents := f.contents.set f.consume none,
           consume := (f.consume + 1) % f.size,
           empty := if (f.consume + 1) % f.size = f.produce then true else f.empty }

namespace F1

/-- The container built by this variant's `fifo_new` on the successful
`calloc` path: `calloc` zeroes the struct and the slot array, then
`size` and `empty = 1` are set. -/
def mkFifo (c : Nat) : Fifo :=
  { size := c, empty := true, produce := 0, consume := 0,
    contents := List.replicate c none }

/-- `fifo_new` (the `fifo_filled` variant): rejects a negative size,
otherwise yields a zeroed container with `empty = 1`. -/
def fifo_new (n : Int) : Option Fifo :=
  if n < 0 then none else some (mkFifo n.toNat)

/-- `fifo_filled`, verbatim: occupancy from `produce`, `consume` and
`empty` without scanning the slot array. -/
def fifo_filled (f : Fifo) : Int :=
  if f.consume < f.produce then (f.produce : Int) - (f.consume : Int)
  else if f.produce < f.consume then
    ((f.size : Int) - (f.consume : Int)) + (f.produce : Int)
  else if f.empty then 0 else (f.size : Int)

/-- `fifo_push` of the `fifo_filled` variant:
`space = size - fifo_filled(fifo)`; a `NULL` string returns `space`
without mutation; `space <= 0` (or the dead guard
`space == size && empty == 0`) returns 0 without mutation; otherwise the
copy is stored and `space` is returned. -/
def fifo_push (f : Fifo) (str : Option String) : Int × Fifo :=
  let space : Int := (f.size : Int) - fifo_filled f
  match str with
  | none => (space, f)
  | some v =>
    if space ≤ 0 ∨ (space = (f.size : Int) ∧ f.empty = false) then (0, f)
    else (space, pushedState f v)

/-- `fifo_pull` of the `fifo_filled` variant: empty buffer yields `NULL`,
otherwise the slot at `consume` is handed out and cleared. -/
def fifo_pull (f : Fifo) : Option String × Fifo :=
  if fifo_filled f ≤ 0 then (none, f)
  else (f.contents.getD f.consume none, pulledState f)

/-- One API call of this variant. -/
inductive Op where
  | push : String → Op
  | pull : Op

/-- Run a sequence of calls, counting successful pushes (`pu`, the code
returned a positive space) and successful pulls (`pl`, the code returned
a string). -/
def runCount (f : Fifo) (ops : List Op) (pu pl : Nat) : Fifo × Nat × Nat :=
  match ops with
  | [] => (f, pu, pl)
  | Op.push v :: rest =>
    let r := fifo_push f (some v)
    runCount r.2 rest (if 0 < r.1 then pu + 1 else pu) pl
  | Op.pull :: rest =>
    let r := fifo_pull f
    runCount r.2 rest pu (if r.1.isSome then pl + 1 else pl)

/-- States reachable from this variant's constructor. -/
def Reachable (c : Nat) (f : Fifo) : Prop :=
  ∃ ops, (runCount (mkFifo c) ops 0 0).1 = f

end F1

namespace F2

/-- The container built by the "Modified: Ather, Faiz" `fifo_new` on the
successful `calloc` path: note `empty = (size > 0) ? 1 : 0`. -/
def mkFifo (c : Nat) : Fifo :=
  { size := c, empty := decide (0 < c), produce := 0, consume := 0,
    contents := List.replicate c none }

/-- `fifo_new` of the "Modified" variant. -/
def fifo_new (n : Int) : Option Fifo :=
  if n < 0 then none else some (mkFifo n.toNat)

/-- `fifo_push` of the "Modified" variant, verbatim:
`space` is the 0/1 flag
`(consume != produce) || (size > 0 && consume == produce && empty == 1)`;
`NULL` string or no space returns `space` unchanged; a failed `calloc`
for the copy (`allocOk = false`) prints a diagnostic and returns `space`
unchanged; otherwise the copy is stored and `space` is returned. -/
def fifo_push (f : Fifo) (str : Option String) (allocOk : Bool) : Int × Fifo :=
  let space : Int :=
    if f.consume ≠ f.produce ∨ (0 < f.size ∧ f.consume = f.produce ∧ f.empty = true)
    then 1 else 0
  match str with
  | none => (space, f)
  | some v =>
    if space ≤ 0 then (space, f)
    else if allocOk then (space, pushedState f v)
    else (space, f)

/-- `fifo_pull` of the "Modified" variant, verbatim: `space` is 0 when
`(consume == produce && empty == 1) || size == 0`, else 1. -/
def fifo_pull (f : Fifo) : Option String × Fifo :=
  if (f.consume = f.produce ∧ f.empty = true) ∨ f.size = 0 then (none, f)
  else (f.contents.getD f.consume none, pulledState f)

/-- One API call of this variant (a push carries its `calloc` oracle). -/
inductive Op where
  | push : String → Bool → Op
  | pull : Op

/-- The state after one API call. -/
def step (f : Fifo) : Op → Fifo
  | Op.push v ok => (fifo_push f (some v) ok).2
  | Op.pull => (fifo_pull f).2

/-- Run a sequence of calls. -/
def run (f : Fifo) : List Op → Fifo
  | [] => f
  | op :: rest => run (step f op) rest

/-- States reachable from this variant's constructor. -/
def Reachable (c : Nat) (f : Fifo) : Prop := ∃ ops, run (mkFifo c) ops = f

/-- Push a whole list of values (allocation succeeding), recording in the
boolean whether every push returned a positive space. -/
def pushAllOk (f : Fifo) : List String → Fifo × Bool
  | [] => (f, true)
  | v :: vs =>
    let r := fifo_push f (some v) true
    let rest := pushAllOk r.2 vs
    (rest.1, decide (0 < r.1) && rest.2)

/-- Pull `n` times, recording the returned values in order. -/
def pullList (f : Fifo) : Nat → List (Option String) × Fifo
  | 0 => ([], f)
  | n + 1 =>
    let r := fifo_pull f
    let rest := pullList r.2 n
    (r.1 :: rest.1, rest.2)

/-- The reclamation loop of this variant's `fifo_free`, instrumented.
It walks `curr` towards `stop` (the loop condition is
`curr != end || empty == 0`), appending to `acc` each index whose slot is
non-`NULL` (those get `bzero`ed and `free`d).  It returns `none` where the
C loop hits undefined behaviour: a slot access with `curr >= size`
(which includes every entry into the loop body when `size == 0`, where
the subsequent `(curr + 1) % size` is a modulo by zero). The `fuel`
argument bounds the iteration count; `fifo_free` passes `size + 1`,
which is proved sufficient for every well-formed buffer. -/
def freeLoop (contents : List (Option String)) (size stop : Nat) :
    Nat → Nat → Bool → List Nat → Option (List Nat)
  | 0, curr, empty, acc =>
    if curr ≠ stop ∨ empty = false then none else some acc
  | fuel + 1, curr, empty, acc =>
    if curr ≠ stop ∨ empty = false then
      if curr < size then
        freeLoop contents size stop fuel ((curr + 1) % size)
          (if (curr + 1) % size = stop then true else empty)
          (if (contents.getD curr none).isSome then acc ++ [curr] else acc)
      else none
    else some acc

/-- `fifo_free` of the "Modified" variant, instrumented to report the
indices of the slots it releases (`some l`, in release order), `some []`
for a `NULL` buffer (a no-op), and `none` when the loop reaches undefined
behaviour.  The initial `curr = 0, end = 0` reset is the full-buffer case
`consume == produce && empty == 0`. -/
def fifo_free : Option Fifo → Option (List Nat)
  | none => some []
  | some f =>
    freeLoop f.contents f.size
      (if f.consume = f.produce ∧ f.empty = false then 0 else f.produce)
      (f.size + 1)
      (if f.consume = f.produce ∧ f.empty = false then 0 else f.consume)
      f.empty []

end F2

/-- The ring-buffer refinement invariant: buffer `f` of capacity `c > 0`
represents the queue `q` (oldest element first).  The populated slots are
exactly the `q.length` positions starting at `consume` (wrapping modulo
`c`), holding the elements of `q` in order. -/
structure RingInv (c : Nat) (f : Fifo) (q : List String) : Prop where
  size_eq : f.size = c
  len_eq : f.contents.length = c
  hp : f.produce < c
  hcc : f.consume < c
  hq : q.length = filledN f
  hqc : q.length ≤ c
  hemp : f.empty = true → f.produce = f.consume
  inside : ∀ k, k < q.length →
    f.contents.getD ((f.consume + k) % c) none = some (q.getD k "")
  outside : ∀ i, i < c → (∀ k, k < q.length → i ≠ (f.consume + k) % c) →
    f.contents.getD i none = none

/-! ## Arithmetic helpers -/

theorem mod_add_inj (c a k₁ k₂ : Nat) (h₁ : k₁ < c) (h₂ : k₂ < c)
    (h : (a + k₁) % c = (a + k₂) % c) : k₁ = k₂ := by
  have h' : k₁ ≡ k₂ [MOD c] := Nat.ModEq.add_left_cancel' a h
  have : k₁ % c = k₂ % c := h'
  rwa [Nat.mod_eq_of_lt h₁, Nat.mod_eq_of_lt h₂] at this

theorem mod_two_cases (c x : Nat) (h : x < 2 * c) :
    x % c = if x < c then x else x - c := by
  split
  · exact Nat.mod_eq_of_lt (by omega)
  · rw [Nat.mod_eq_sub_mod (by omega)]
    exact Nat.mod_eq_of_lt (by omega)

/-! ## List helpers (slot array access and counting) -/

theorem getD_set_self (l : List (Option String)) (i : Nat) (a : Option String)
    (h : i < l.length) : (l.set i a).getD i none = a := by
  induction l generalizing i with
  | nil => simp at h
  | cons x t ih =>
    cases i with
    | zero => rfl
    | succ j => exact ih j (by simpa using h)

theorem getD_set_ne (l : List (Option String)) (i j : Nat) (a : Option String)
    (hij : i ≠ j) : (l.set i a).getD j none = l.getD j none := by
  induction l generalizing i j with
  | nil => rfl
  | cons x t ih =>
    cases i with
    | zero =>
      cases j with
      | zero => exact absurd rfl hij
      | succ j' => rfl
    | succ i' =>
      cases j with
      | zero => rfl
      | succ j' => exact ih i' j' (by omega)

theorem getD_ge (l : List (Option String)) (i : Nat) (h : l.length ≤ i) :
    l.getD i none = none := by
  induction l generalizing i with
  | nil => rfl
  | cons x t ih =>
    cases i with
    | zero => simp at h
    | succ j => exact ih j (by simpa using h)

theorem getD_replicate (n i : Nat) :
    (List.replicate n (none : Option String)).getD i none = none := by
  induction n generalizing i with
  | zero => rfl
  | succ m ih =>
    cases i with
    | zero => rfl
    | succ j => exact ih j

theorem getD_append_lt (q r : List String) (k : Nat) (d : String)
    (h : k < q.length) : (q ++ r).getD k d = q.getD k d := by
  induction q generalizing k with
  | nil => simp at h
  | cons x t ih =>
    cases k with
    | zero => rfl
    | succ j => exact ih j (by simpa using h)

theorem getD_concat (q : List String) (v d : String) :
    (q ++ [v]).getD q.length d = v := by
  induction q with
  | nil => rfl
  | cons x t ih => exact ih

theorem countSome_set_some (l : List (Option String)) (i : Nat) (v : String)
    (h0 : l.getD i none = none) :
    countSome (l.set i (some v)) = countSome l + (if i < l.length then 1 else 0) := by
  induction l generalizing i with
  | nil => simp [countSome]
  | cons x t ih =>
    cases i with
    | zero =>
      have hx : x = none := h0
      simp [countSome, hx]
      omega
    | succ j =>
      have h1 := ih j h0
      simp only [List.set, countSome, h1, List.length_cons]
      split_ifs with ha hb hb <;> omega

theorem countSome_set_none (l : List (Option String)) (i : Nat) (v : String)
    (h0 : l.getD i none = some v) :
    countSome (l.set i none) + 1 = countSome l := by
  induction l generalizing i with
  | nil => exact absurd h0 (by simp [List.getD])
  | cons x t ih =>
    cases i with
    | zero =>
      have hx : x = some v := h0
      simp [countSome, hx]
      omega
    | succ j =>
      have := ih j h0
      simp only [List.set, countSome]
      omega

theorem countSome_zero (l : List (Option String))
    (h : ∀ i, i < l.length → l.getD i none = none) : countSome l = 0 := by
  induction l with
  | nil => rfl
  | cons x t ih =>
    have hx : x = none := h 0 (by simp)
    have ht : countSome t = 0 := ih fun i hi => h (i + 1) (by simpa using hi)
    simp [countSome, hx, ht]

/-! ## Properties of the occupancy formula -/

theorem filledN_zero (f : Fifo) (he : f.empty = true)
    (hpc : f.produce = f.consume) : filledN f = 0 := by
  unfold filledN
  rw [hpc]
  simp [he]

theorem filledN_run (c len : Nat) (f : Fifo) (hsz : f.size = c)
    (hem : f.empty = false) (hpr : f.produce = (f.consume + len) % c)
    (hcc : f.consume < c) (h0 : 0 < len) (hlc : len ≤ c) : filledN f = len := by
  have h2 : f.produce =
      if f.consume + len < c then f.consume + len else f.consume + len - c := by
    rw [hpr]
    exact mod_two_cases c _ (by omega)
  unfold filledN
  rw [hem]
  by_cases hcase : f.consume + len < c
  · rw [if_pos hcase] at h2
    split_ifs <;> first | omega | exact absurd (by assumption) (by simp)
  · rw [if_neg hcase] at h2
    split_ifs <;> first | omega | exact absurd (by assumption) (by simp)

theorem inv_produce_eq {c : Nat} {f : Fifo} {q : List String}
    (h : RingInv c f q) : f.produce = (f.consume + q.length) % c := by
  have hq := h.hq
  have hcc := h.hcc
  have hp := h.hp
  have hsz := h.size_eq
  unfold filledN at hq
  by_cases h1 : f.consume < f.produce
  · rw [if_pos h1] at hq
    have he : f.consume + q.length = f.produce := by omega
    rw [he, Nat.mod_eq_of_lt hp]
  · rw [if_neg h1] at hq
    by_cases h2 : f.produce < f.consume
    · rw [if_pos h2] at hq
      have he : f.consume + q.length = c + f.produce := by omega
      rw [he, Nat.add_mod_left, Nat.mod_eq_of_lt hp]
    · rw [if_neg h2] at hq
      have hpc : f.produce = f.consume := by omega
      by_cases h3 : f.empty = true
      · rw [if_pos h3] at hq
        rw [hpc, hq, Nat.add_zero, Nat.mod_eq_of_lt hcc]
      · rw [if_neg h3] at hq
        rw [hpc, hq, hsz, Nat.add_mod_right, Nat.mod_eq_of_lt hcc]

theorem inv_empty_iff {c : Nat} {f : Fifo} {q : List String}
    (h : RingInv c f q) (hc : 0 < c) : f.empty = true ↔ q.length = 0 := by
  constructor
  · intro he
    have hz := filledN_zero f he (h.hemp he)
    have hq := h.hq
    omega
  · intro h0
    by_contra hne
    have he : f.empty = false := by
      cases hem : f.empty
      · rfl
      · exact absurd hem hne
    have hq := h.hq
    have hcc := h.hcc
    have hsz := h.size_eq
    unfold filledN at hq
    rw [he] at hq
    split_ifs at hq <;> first | omega | exact ‹False›

theorem inv_pc_iff {c : Nat} {f : Fifo} {q : List String}
    (h : RingInv c f q) (hc : 0 < c) :
    f.produce = f.consume ↔ (q.length = 0 ∨ q.length = c) := by
  have hpe := inv_produce_eq h
  constructor
  · intro hpc
    by_cases hlen : q.length = c
    · exact Or.inr hlen
    · refine Or.inl ?_
      have hlt : q.length < c := lt_of_le_of_ne h.hqc hlen
      have he : (f.consume + q.length) % c = (f.consume + 0) % c := by
        rw [Nat.add_zero, Nat.mod_eq_of_lt h.hcc, ← hpe]
        exact hpc
      exact mod_add_inj c f.consume _ 0 hlt hc he
  · rintro (h0 | hfull)
    · rw [hpe, h0, Nat.add_zero, Nat.mod_eq_of_lt h.hcc]
    · rw [hpe, hfull, Nat.add_mod_right, Nat.mod_eq_of_lt h.hcc]

/-! ## The invariant is preserved by the push and pull mutations -/

theorem inv_pushed {c : Nat} {f : Fifo} {q : List String}
    (h : RingInv c f q) (hlt : q.length < c) (v : String) :
    RingInv c (pushedState f v) (q ++ [v]) ∧
      liveCount (pushedState f v) = liveCount f + 1 := by
  have hc : 0 < c := by omega
  have hpe := inv_produce_eq h
  have hpnotin : ∀ k, k < q.length → f.produce ≠ (f.consume + k) % c := by
    intro k hk heq
    have := mod_add_inj c f.consume q.length k hlt (by omega) (hpe ▸ heq)
    omega
  have hslotp : f.contents.getD f.produce none = none :=
    h.outside f.produce h.hp hpnotin
  have hplen : f.produce < f.contents.length := by
    rw [h.len_eq]
    exact h.hp
  have hpr' : (pushedState f v).produce =
      ((pushedState f v).consume + (q.length + 1)) % c := by
    show (f.produce + 1) % f.size = (f.consume + (q.length + 1)) % c
    rw [h.size_eq, hpe, Nat.mod_add_mod, Nat.add_assoc]
  have hlen1 : (q ++ [v]).length = q.length + 1 := by simp
  constructor
  · refine ⟨h.size_eq, ?_, ?_, h.hcc, ?_, ?_, ?_, ?_, ?_⟩
    · show (f.contents.set f.produce (some v)).length = c
      rw [List.length_set]
      exact h.len_eq
    · show (f.produce + 1) % f.size < c
      rw [h.size_eq]
      exact Nat.mod_lt _ hc
    · rw [hlen1]
      exact (filledN_run c (q.length + 1) (pushedState f v) h.size_eq rfl hpr'
        h.hcc (by omega) (by omega)).symm
    · rw [hlen1]
      omega
    · intro hfalse
      simp [pushedState] at hfalse
    · intro k hk
      rw [hlen1] at hk
      show (f.contents.set f.produce (some v)).getD ((f.consume + k) % c) none =
        some ((q ++ [v]).getD k "")
      by_cases hkq : k < q.length
      · rw [getD_set_ne _ _ _ _ (hpnotin k hkq), h.inside k hkq,
          getD_append_lt q [v] k "" hkq]
      · have hkk : k = q.length := by omega
        subst hkk
        rw [← hpe, getD_set_self _ _ _ hplen, getD_concat]
    · intro i hi hnot
      show (f.contents.set f.produce (some v)).getD i none = none
      have hip : i ≠ f.produce := by
        intro heq
        exact hnot q.length (by rw [hlen1]; omega) (heq.trans hpe)
      rw [getD_set_ne _ _ _ _ (Ne.symm hip)]
      refine h.outside i hi ?_
      intro k hk
      exact hnot k (by rw [hlen1]; omega)
  · show countSome (f.contents.set f.produce (some v)) = countSome f.contents + 1
    rw [countSome_set_some _ _ _ hslotp, if_pos hplen]

theorem inv_pulled {c : Nat} {f : Fifo} {v : String} {q' : List String}
    (h : RingInv c f (v :: q')) :
    f.empty = false ∧ f.contents.getD f.consume none = some v ∧
      RingInv c (pulledState f) q' ∧
      liveCount f = liveCount (pulledState f) + 1 := by
  have hn : (v :: q').length = q'.length + 1 := by simp
  have hc : 0 < c := by
    have := h.hqc
    omega
  have hpe := inv_produce_eq h
  have hemp : f.empty = false := by
    cases hem : f.empty
    · rfl
    · have := (inv_empty_iff h hc).mp hem
      omega
  have hget : f.contents.getD f.consume none = some v := by
    have := h.inside 0 (by omega)
    rwa [Nat.add_zero, Nat.mod_eq_of_lt h.hcc] at this
  have hcclen : f.consume < f.contents.length := by
    rw [h.len_eq]
    exact h.hcc
  have hcc'lt : (f.consume + 1) % f.size < c := by
    rw [h.size_eq]
    exact Nat.mod_lt _ hc
  have hq'c : q'.length < c := by
    have := h.hqc
    omega
  have hpr' : f.produce = ((f.consume + 1) % f.size + q'.length) % c := by
    rw [h.size_eq, Nat.mod_add_mod, hpe, hn]
    congr 1
    omega
  have hpc' : q'.length = 0 → (f.consume + 1) % f.size = f.produce := by
    intro h0
    rw [hpr', h0]
    simp [Nat.mod_eq_of_lt hcc'lt]
  have hne' : 0 < q'.length → (f.consume + 1) % f.size ≠ f.produce := by
    intro h0 heq
    have h1 : ((f.consume + 1) % f.size + 0) % c =
        ((f.consume + 1) % f.size + q'.length) % c := by
      rw [← hpr', ← heq]
      simp [Nat.mod_eq_of_lt hcc'lt]
    have := mod_add_inj c ((f.consume + 1) % f.size) 0 q'.length hc hq'c h1
    omega
  have hemp' : (pulledState f).empty = (if (f.consume + 1) % f.size = f.produce
      then true else f.empty) := rfl
  refine ⟨hemp, hget, ⟨h.size_eq, ?_, h.hp, hcc'lt, ?_, by omega, ?_, ?_, ?_⟩, ?_⟩
  · show (f.contents.set f.consume none).length = c
    rw [List.length_set]
    exact h.len_eq
  · -- q'.length = filledN (pulledState f)
    by_cases h0 : q'.length = 0
    · rw [h0]
      refine (filledN_zero _ ?_ ?_).symm
      · rw [hemp', if_pos (hpc' h0)]
      · show f.produce = (f.consume + 1) % f.size
        exact (hpc' h0).symm
    · have hem2 : (pulledState f).empty = false := by
        rw [hemp', if_neg (hne' (by omega)), hemp]
      refine (filledN_run c q'.length (pulledState f) h.size_eq hem2 ?_ hcc'lt
        (by omega) (by omega)).symm
      show f.produce = ((f.consume + 1) % f.size + q'.length) % c
      exact hpr'
  · intro he'
    show f.produce = (f.consume + 1) % f.size
    rw [hemp'] at he'
    by_cases hcase : (f.consume + 1) % f.size = f.produce
    · exact hcase.symm
    · rw [if_neg hcase, hemp] at he'
      exact absurd he' (by simp)
  · intro k hk
    show (f.contents.set f.consume none).getD (((f.consume + 1) % f.size + k) % c) none =
      some (q'.getD k "")
    have hidx : ((f.consume + 1) % f.size + k) % c = (f.consume + (k + 1)) % c := by
      rw [h.size_eq, Nat.mod_add_mod]
      congr 1
      omega
    rw [hidx]
    have hnei : (f.consume + (k + 1)) % c ≠ f.consume := by
      intro heq
      have h1 : (f.consume + (k + 1)) % c = (f.consume + 0) % c := by
        rw [heq, Nat.add_zero, Nat.mod_eq_of_lt h.hcc]
      have := mod_add_inj c f.consume (k + 1) 0 (by omega) hc h1
      omega
    rw [getD_set_ne _ _ _ _ (fun heq => hnei heq.symm)]
    have := h.inside (k + 1) (by omega)
    rw [this]
    rfl
  · intro i hi hnot
    show (f.contents.set f.consume none).getD i none = none
    by_cases hic : i = f.consume
    · subst hic
      rw [getD_set_self _ _ _ hcclen]
    · rw [getD_set_ne _ _ _ _ (fun heq => hic heq.symm)]
      refine h.outside i hi ?_
      intro k hk
      cases k with
      | zero =>
        rw [Nat.add_zero, Nat.mod_eq_of_lt h.hcc]
        exact hic
      | succ j =>
        have hj : j < q'.length := by omega
        have hidx : (f.consume + (j + 1)) % c = ((f.consume + 1) % f.size + j) % c := by
          rw [h.size_eq, Nat.mod_add_mod]
          congr 1
          omega
        rw [hidx]
        exact hnot j hj
  · show countSome f.contents = countSome (f.contents.set f.consume none) + 1
    exact (countSome_set_none _ _ _ hget).symm

/-! ## Derived facts about invariant states -/

theorem inv_liveCount {c : Nat} {f : Fifo} {q : List String}
    (h : RingInv c f q) : liveCount f = q.length := by
  induction q generalizing f with
  | nil =>
    refine countSome_zero f.contents ?_
    intro i hi
    exact h.outside i (by rw [← h.len_eq]; exact hi) (fun k hk => by simp at hk)
  | cons v q' ih =>
    obtain ⟨-, -, hinv', hcount⟩ := inv_pulled h
    have := ih hinv'
    simp only [List.length_cons]
    omega

theorem inv_init (c : Nat) (hc : 0 < c) :
    RingInv c ⟨c, true, 0, 0, List.replicate c none⟩ [] := by
  refine ⟨rfl, by simp, hc, hc, ?_, by simp, fun _ => rfl,
    fun k hk => by simp at hk, ?_⟩
  · show 0 = filledN ⟨c, true, 0, 0, List.replicate c none⟩
    exact (filledN_zero _ rfl rfl).symm
  · intro i hi hnot
    exact getD_replicate c i

theorem f1_mkFifo_eq (c : Nat) :
    F1.mkFifo c = ⟨c, true, 0, 0, List.replicate c none⟩ := rfl

theorem f2_mkFifo_pos (c : Nat) (hc : 0 < c) :
    F2.mkFifo c = ⟨c, true, 0, 0, List.replicate c none⟩ := by
  simp [F2.mkFifo, hc]

/-! ## The variant operations, under the invariant -/

theorem f2_push_eq {c : Nat} {f : Fifo} {q : List String}
    (h : RingInv c f q) (hlt : q.length < c) (v : String) :
    F2.fifo_push f (some v) true = (1, pushedState f v) := by
  have hc : 0 < c := by omega
  have hcond : f.consume ≠ f.produce ∨
      (0 < f.size ∧ f.consume = f.produce ∧ f.empty = true) := by
    by_cases hcp : f.consume = f.produce
    · refine Or.inr ⟨by rw [h.size_eq]; exact hc, hcp, ?_⟩
      have h0 : q.length = 0 := by
        rcases (inv_pc_iff h hc).mp hcp.symm with h0 | hfull
        · exact h0
        · omega
      exact (inv_empty_iff h hc).mpr h0
    · exact Or.inl hcp
  unfold F2.fifo_push
  rw [if_pos hcond]
  norm_num

theorem f2_push_full {c : Nat} {f : Fifo} {q : List String}
    (h : RingInv c f q) (hc : 0 < c) (hfull : q.length = c) (v : String)
    (ok : Bool) : F2.fifo_push f (some v) ok = (0, f) := by
  have hcp : f.produce = f.consume := (inv_pc_iff h hc).mpr (Or.inr hfull)
  have hem : f.empty = false := by
    cases hem2 : f.empty
    · rfl
    · have := (inv_empty_iff h hc).mp hem2
      omega
  have hcond : ¬(f.consume ≠ f.produce ∨
      (0 < f.size ∧ f.consume = f.produce ∧ f.empty = true)) := by
    push_neg
    refine ⟨hcp.symm, fun _ _ => ?_⟩
    rw [hem]
    simp
  unfold F2.fifo_push
  rw [if_neg hcond]
  norm_num

theorem f2_push_allocfail (f : Fifo) (v : String) :
    (F2.fifo_push f (some v) false).2 = f := by
  unfold F2.fifo_push
  split <;> split <;> simp

theorem f2_pull_cons {c : Nat} {f : Fifo} {v : String} {q' : List String}
    (h : RingInv c f (v :: q')) :
    F2.fifo_pull f = (some v, pulledState f) := by
  have hc : 0 < c := by
    have := h.hqc
    simp only [List.length_cons] at this
    omega
  obtain ⟨hemp, hget, -, -⟩ := inv_pulled h
  have hguard : ¬((f.consume = f.produce ∧ f.empty = true) ∨ f.size = 0) := by
    push_neg
    refine ⟨fun _ => by rw [hemp]; simp, by rw [h.size_eq]; omega⟩
  unfold F2.fifo_pull
  rw [if_neg hguard, hget]

theorem f2_pull_nil {c : Nat} {f : Fifo}
    (h : RingInv c f []) (hc : 0 < c) : F2.fifo_pull f = (none, f) := by
  have hem : f.empty = true := (inv_empty_iff h hc).mpr rfl
  have hcp : f.produce = f.consume := h.hemp hem
  unfold F2.fifo_pull
  rw [if_pos (Or.inl ⟨hcp.symm, hem⟩)]

theorem f1_filled_eq {c : Nat} {f : Fifo} {q : List String}
    (h : RingInv c f q) : F1.fifo_filled f = (q.length : Int) := by
  have hq := h.hq
  have hcc := h.hcc
  have hp := h.hp
  have hsz := h.size_eq
  unfold F1.fifo_filled
  unfold filledN at hq
  split_ifs at hq ⊢ <;> push_cast <;> omega

theorem f1_push_eq {c : Nat} {f : Fifo} {q : List String}
    (h : RingInv c f q) (hlt : q.length < c) (v : String) :
    F1.fifo_push f (some v) = ((c : Int) - (q.length : Int), pushedState f v) := by
  have hc : 0 < c := by omega
  have hsp : (f.size : Int) - F1.fifo_filled f = (c : Int) - (q.length : Int) := by
    rw [f1_filled_eq h, h.size_eq]
  have hguard : ¬((f.size : Int) - F1.fifo_filled f ≤ 0 ∨
      ((f.size : Int) - F1.fifo_filled f = (f.size : Int) ∧ f.empty = false)) := by
    push_neg
    rw [hsp, h.size_eq]
    refine ⟨by omega, fun hz => ?_⟩
    have h0 : q.length = 0 := by omega
    rw [(inv_empty_iff h hc).mpr h0]
    simp
  simp only [F1.fifo_push]
  rw [if_neg hguard, hsp]

theorem f1_push_full {c : Nat} {f : Fifo} {q : List String}
    (h : RingInv c f q) (hfull : q.length = c) (v : String) :
    F1.fifo_push f (some v) = (0, f) := by
  have hguard : (f.size : Int) - F1.fifo_filled f ≤ 0 ∨
      ((f.size : Int) - F1.fifo_filled f = (f.size : Int) ∧ f.empty = false) := by
    refine Or.inl ?_
    rw [f1_filled_eq h, h.size_eq, hfull]
    omega
  simp only [F1.fifo_push]
  rw [if_pos hguard]

theorem f1_push_none {c : Nat} {f : Fifo} {q : List String}
    (h : RingInv c f q) :
    F1.fifo_push f none = ((c : Int) - (q.length : Int), f) := by
  unfold F1.fifo_push
  rw [f1_filled_eq h, h.size_eq]

theorem f1_pull_cons {c : Nat} {f : Fifo} {v : String} {q' : List String}
    (h : RingInv c f (v :: q')) :
    F1.fifo_pull f = (some v, pulledState f) := by
  obtain ⟨-, hget, -, -⟩ := inv_pulled h
  have hfl : F1.fifo_filled f = ((v :: q').length : Int) := f1_filled_eq h
  have hguard : ¬(F1.fifo_filled f ≤ 0) := by
    rw [hfl]
    simp
  unfold F1.fifo_pull
  rw [if_neg hguard, hget]

theorem f1_pull_nil {c : Nat} {f : Fifo} (h : RingInv c f []) :
    F1.fifo_pull f = (none, f) := by
  have hfl : F1.fifo_filled f = ((0 : Nat) : Int) := f1_filled_eq h
  unfold F1.fifo_pull
  rw [if_pos (by rw [hfl]; omega)]

/-! ## Runs of the F2 variant -/

theorem f2_run_inv {c : Nat} (hc : 0 < c) :
    ∀ (ops : List F2.Op) (f : Fifo) (q : List String), RingInv c f q →
      ∃ q', RingInv c (F2.run f ops) q' := by
  intro ops
  induction ops with
  | nil => exact fun f q h => ⟨q, h⟩
  | cons op rest ih =>
    intro f q h
    cases op with
    | push v ok =>
      show ∃ q', RingInv c (F2.run (F2.fifo_push f (some v) ok).2 rest) q'
      by_cases hlen : q.length < c
      · cases ok with
        | true =>
          rw [f2_push_eq h hlen v]
          exact ih _ _ (inv_pushed h hlen v).1
        | false =>
          rw [f2_push_allocfail f v]
          exact ih _ _ h
      · have hfull : q.length = c := by
          have := h.hqc
          omega
        rw [f2_push_full h hc hfull v ok]
        exact ih _ _ h
    | pull =>
      show ∃ q', RingInv c (F2.run (F2.fifo_pull f).2 rest) q'
      cases q with
      | nil =>
        rw [f2_pull_nil h hc]
        exact ih _ _ h
      | cons v q' =>
        rw [f2_pull_cons h]
        exact ih _ _ (inv_pulled h).2.2.1

theorem f2_reach_inv {c : Nat} {f : Fifo} (hc : 0 < c)
    (hr : F2.Reachable c f) : ∃ q, RingInv c f q := by
  obtain ⟨ops, rfl⟩ := hr
  refine f2_run_inv hc ops _ [] ?_
  rw [f2_mkFifo_pos c hc]
  exact inv_init c hc

/-! ## The capacity-0 buffer of the F2 variant is a fixed point -/

theorem f2_push_some_zero (v : String) (ok : Bool) :
    F2.fifo_push (F2.mkFifo 0) (some v) ok = (0, F2.mkFifo 0) := by
  simp [F2.fifo_push, F2.mkFifo]

theorem f2_push_none_zero (ok : Bool) :
    F2.fifo_push (F2.mkFifo 0) none ok = (0, F2.mkFifo 0) := by
  simp [F2.fifo_push, F2.mkFifo]

theorem f2_pull_zero : F2.fifo_pull (F2.mkFifo 0) = (none, F2.mkFifo 0) := by
  simp [F2.fifo_pull, F2.mkFifo]

theorem f2_step_zero (op : F2.Op) : F2.step (F2.mkFifo 0) op = F2.mkFifo 0 := by
  cases op with
  | push v ok =>
    show (F2.fifo_push (F2.mkFifo 0) (some v) ok).2 = F2.mkFifo 0
    rw [f2_push_some_zero]
  | pull =>
    show (F2.fifo_pull (F2.mkFifo 0)).2 = F2.mkFifo 0
    rw [f2_pull_zero]

theorem f2_run_zero (ops : List F2.Op) :
    F2.run (F2.mkFifo 0) ops = F2.mkFifo 0 := by
  induction ops with
  | nil => rfl
  | cons op rest ih =>
    show F2.run (F2.step (F2.mkFifo 0) op) rest = F2.mkFifo 0
    rw [f2_step_zero op]
    exact ih

theorem f2_reach_zero {f : Fifo} (hr : F2.Reachable 0 f) : f = F2.mkFifo 0 := by
  obtain ⟨ops, rfl⟩ := hr
  exact f2_run_zero ops

/-! ## Runs of the F1 variant, with success counters -/

theorem f1_runCount_inv {c : Nat} (hc : 0 < c) :
    ∀ (ops : List F1.Op) (f : Fifo) (q : List String) (pu pl : Nat),
      RingInv c f q →
      ∃ q', RingInv c (F1.runCount f ops pu pl).1 q' ∧
        q'.length + (F1.runCount f ops pu pl).2.2 + pu =
          q.length + (F1.runCount f ops pu pl).2.1 + pl := by
  intro ops
  induction ops with
  | nil => exact fun f q pu pl h => ⟨q, h, by simp [F1.runCount]; omega⟩
  | cons op rest ih =>
    intro f q pu pl h
    cases op with
    | push v =>
      by_cases hlen : q.length < c
      · have hr := f1_push_eq h hlen v
        have hpos : (0 : Int) < (c : Int) - (q.length : Int) := by omega
        show ∃ q', _ ∧ _
        simp only [F1.runCount, hr]
        rw [if_pos hpos]
        obtain ⟨q', hq', harith⟩ := ih (pushedState f v) (q ++ [v]) (pu + 1) pl
          (inv_pushed h hlen v).1
        refine ⟨q', hq', ?_⟩
        simp only [List.length_append, List.length_singleton] at harith
        omega
      · have hfull : q.length = c := by
          have := h.hqc
          omega
        have hr := f1_push_full h hfull v
        show ∃ q', _ ∧ _
        simp only [F1.runCount, hr]
        rw [if_neg (by omega : ¬(0 : Int) < (0 : Int))]
        exact ih f q pu pl h
    | pull =>
      cases q with
      | nil =>
        have hr := f1_pull_nil h
        show ∃ q', _ ∧ _
        simp only [F1.runCount, hr, Option.isSome_none]
        rw [if_neg (by simp)]
        exact ih f [] pu pl h
      | cons v q' =>
        have hr := f1_pull_cons h
        show ∃ q', _ ∧ _
        simp only [F1.runCount, hr, Option.isSome_some, eq_self_iff_true, if_true]
        obtain ⟨q'', hq'', harith⟩ := ih (pulledState f) q' pu (pl + 1)
          (inv_pulled h).2.2.1
        refine ⟨q'', hq'', ?_⟩
        simp only [List.length_cons]
        omega

theorem f1_reach_inv {c : Nat} {f : Fifo} (hc : 0 < c)
    (hr : F1.Reachable c f) : ∃ q, RingInv c f q := by
  obtain ⟨ops, rfl⟩ := hr
  obtain ⟨q', hq', -⟩ := f1_runCount_inv hc ops (F1.mkFifo c) [] 0 0
    (by rw [f1_mkFifo_eq]; exact inv_init c hc)
  exact ⟨q', hq'⟩

/-! ## The capacity-0 buffer of the F1 variant is a fixed point -/

theorem f1_push_some_zero (v : String) :
    F1.fifo_push (F1.mkFifo 0) (some v) = (0, F1.mkFifo 0) := by
  simp [F1.fifo_push, F1.fifo_filled, F1.mkFifo]

theorem f1_push_none_zero : F1.fifo_push (F1.mkFifo 0) none = (0, F1.mkFifo 0) := by
  simp [F1.fifo_push, F1.fifo_filled, F1.mkFifo]

theorem f1_pull_zero : F1.fifo_pull (F1.mkFifo 0) = (none, F1.mkFifo 0) := by
  simp [F1.fifo_pull, F1.fifo_filled, F1.mkFifo]

theorem f1_runCount_zero (ops : List F1.Op) (pu pl : Nat) :
    F1.runCount (F1.mkFifo 0) ops pu pl = (F1.mkFifo 0, pu, pl) := by
  induction ops generalizing pu pl with
  | nil => rfl
  | cons op rest ih =>
    cases op with
    | push v =>
      simp only [F1.runCount, f1_push_some_zero]
      rw [if_neg (by omega : ¬(0 : Int) < (0 : Int))]
      exact ih pu pl
    | pull =>
      simp only [F1.runCount, f1_pull_zero, Option.isSome_none]
      rw [if_neg (by simp)]
      exact ih pu pl

theorem f1_reach_zero {f : Fifo} (hr : F1.Reachable 0 f) : f = F1.mkFifo 0 := by
  obtain ⟨ops, rfl⟩ := hr
  rw [f1_runCount_zero]

/-! ## Bulk pushes and pulls (for the FIFO-order property) -/

theorem f2_pushAllOk_spec {c : Nat} (hc : 0 < c) :
    ∀ (vs : List String) (f : Fifo) (q : List String), RingInv c f q →
      q.length + vs.length ≤ c →
      (F2.pushAllOk f vs).2 = true ∧
        RingInv c (F2.pushAllOk f vs).1 (q ++ vs) := by
  intro vs
  induction vs with
  | nil =>
    intro f q h _
    exact ⟨rfl, by simpa using h⟩
  | cons v vs ih =>
    intro f q h hlen
    have hlt : q.length < c := by
      simp only [List.length_cons] at hlen
      omega
    have hr := f2_push_eq h hlt v
    obtain ⟨hok, hinv⟩ := ih (pushedState f v) (q ++ [v]) (inv_pushed h hlt v).1
      (by simp only [List.length_append, List.length_singleton,
        List.length_cons, List.length_nil] at hlen ⊢; omega)
    constructor
    · show (F2.pushAllOk f (v :: vs)).2 = true
      simp only [F2.pushAllOk, hr, hok]
      norm_num
    · show RingInv c (F2.pushAllOk f (v :: vs)).1 (q ++ v :: vs)
      simp only [F2.pushAllOk, hr]
      rw [show q ++ v :: vs = (q ++ [v]) ++ vs by simp]
      exact hinv

theorem f2_pullList_spec {c : Nat} (hc : 0 < c) :
    ∀ (q : List String) (f : Fifo), RingInv c f q →
      (F2.pullList f q.length).1 = q.map some := by
  intro q
  induction q with
  | nil => intro f h; rfl
  | cons v q' ih =>
    intro f h
    have hr := f2_pull_cons h
    show (F2.pullList f (q'.length + 1)).1 = some v :: q'.map some
    simp only [F2.pullList, hr]
    rw [ih (pulledState f) (inv_pulled h).2.2.1]

/-! ## Claim C1: FIFO ordering -/

/-- C1.  For every capacity `c` and every list `vs` of at most `c` values,
pushing them all into a fresh buffer succeeds (every push returns a
positive space), and `vs.length` subsequent pulls return exactly
`v1..vn` in push order, each equal to the pushed string. -/
theorem claim_C1_fifo_order (c : Nat) (vs : List String)
    (hn : vs.length ≤ c) :
    (F2.pushAllOk (F2.mkFifo c) vs).2 = true ∧
    (F2.pullList (F2.pushAllOk (F2.mkFifo c) vs).1 vs.length).1 = vs.map some := by
  by_cases hc : 0 < c
  · have hinit : RingInv c (F2.mkFifo c) [] := by
      rw [f2_mkFifo_pos c hc]
      exact inv_init c hc
    obtain ⟨hok, hinv⟩ := f2_pushAllOk_spec hc vs (F2.mkFifo c) [] hinit
      (by simpa using hn)
    refine ⟨hok, ?_⟩
    have := f2_pullList_spec hc vs (F2.pushAllOk (F2.mkFifo c) vs).1
      (by simpa using hinv)
    exact this
  · have hc0 : c = 0 := by omega
    subst hc0
    have hvs : vs = [] := by
      cases vs with
      | nil => rfl
      | cons a t => simp at hn
    subst hvs
    exact ⟨rfl, rfl⟩

/-- Witness for C1 at capacity 2 with values "a", "b". -/
theorem claim_C1_fifo_order_witness :
    (F2.pushAllOk (F2.mkFifo 2) ["a", "b"]).2 = true ∧
    (F2.pullList (F2.pushAllOk (F2.mkFifo 2) ["a", "b"]).1 2).1 =
      ["a", "b"].map some :=
  claim_C1_fifo_order 2 ["a", "b"] (by decide)

/-! ## Claim C2: the return value of a successful push -/

/-- C2 counterexample.  On an empty capacity-2 buffer of the "Modified"
variant the first push succeeds (the value is stored) but returns 1, not
the 2 free slots the claim demands. -/
theorem claim_C2_counterexample :
    liveCount (F2.mkFifo 2) = 0 ∧
    (F2.fifo_push (F2.mkFifo 2) (some "a") true).1 = 1 ∧
    (F2.fifo_push (F2.mkFifo 2) (some "a") true).2 =
      ⟨2, false, 1, 0, [some "a", none]⟩ := by
  refine ⟨by decide, by decide, by decide⟩

/-- C2 amended.  In every reachable non-full state, a successful push of
the `fifo_filled` variant returns `capacity - occupancy` as measured
before the insertion (so 2 then 1 on an empty capacity-2 buffer), while a
successful push of the "Modified" variant always returns 1. -/
theorem claim_C2_push_return_amended :
    (∀ (c : Nat) (f : Fifo) (v : String), F1.Reachable c f → liveCount f < c →
      (F1.fifo_push f (some v)).1 = (c : Int) - (liveCount f : Int)) ∧
    (∀ (c : Nat) (f : Fifo) (v : String), F2.Reachable c f → liveCount f < c →
      (F2.fifo_push f (some v) true).1 = 1) := by
  constructor
  · intro c f v hr hlt
    have hc : 0 < c := by omega
    obtain ⟨q, hq⟩ := f1_reach_inv hc hr
    have hl := inv_liveCount hq
    rw [f1_push_eq hq (by omega) v, hl]
  · intro c f v hr hlt
    have hc : 0 < c := by omega
    obtain ⟨q, hq⟩ := f2_reach_inv hc hr
    have hl := inv_liveCount hq
    rw [f2_push_eq hq (by omega) v]

/-- Witness for the amended C2 on empty capacity-2 buffers. -/
theorem claim_C2_push_return_witness :
    (F1.fifo_push (F1.mkFifo 2) (some "a")).1 =
      (2 : Int) - (liveCount (F1.mkFifo 2) : Int) ∧
    (F2.fifo_push (F2.mkFifo 2) (some "a") true).1 = 1 :=
  ⟨claim_C2_push_return_amended.1 2 (F1.mkFifo 2) "a" ⟨[], rfl⟩ (by decide),
   claim_C2_push_return_amended.2 2 (F2.mkFifo 2) "a" ⟨[], rfl⟩ (by decide)⟩

/-! ## Claim C3: full-buffer rejection -/

/-- C3.  In every reachable state of the "Modified" variant whose
occupancy equals the capacity, a push of any non-null value returns 0 and
leaves the whole state unchanged; and after one subsequent successful
pull, the next push succeeds (returns the positive space flag 1). -/
theorem claim_C3_full_reject (c : Nat) (f : Fifo) (hr : F2.Reachable c f)
    (hfull : liveCount f = c) :
    (∀ (v : String) (ok : Bool), F2.fifo_push f (some v) ok = (0, f)) ∧
    (∀ (s : String) (f' : Fifo), F2.fifo_pull f = (some s, f') →
      ∀ v : String, (F2.fifo_push f' (some v) true).1 = 1) := by
  by_cases hc : 0 < c
  · obtain ⟨q, hq⟩ := f2_reach_inv hc hr
    have hl := inv_liveCount hq
    have hlen : q.length = c := by omega
    constructor
    · intro v ok
      exact f2_push_full hq hc hlen v ok
    · intro s f' hpull v
      cases q with
      | nil => simp at hlen; omega
      | cons w q' =>
        rw [f2_pull_cons hq] at hpull
        have hf' : pulledState f = f' := congrArg Prod.snd hpull
        obtain ⟨-, -, hinv', -⟩ := inv_pulled hq
        rw [← hf']
        have hlt' : q'.length < c := by
          simp only [List.length_cons] at hlen
          omega
        rw [f2_push_eq hinv' hlt' v]
  · have hc0 : c = 0 := by omega
    subst hc0
    have hf := f2_reach_zero hr
    subst hf
    constructor
    · intro v ok
      exact f2_push_some_zero v ok
    · intro s f' hpull v
      rw [f2_pull_zero] at hpull
      exact absurd (congrArg Prod.fst hpull) (by simp)

/-- Witness for C3: the full capacity-1 buffer reached by pushing "a";
the push of "b" is rejected with 0 and the state is unchanged, and after
pulling once the next push returns the success flag 1. -/
theorem claim_C3_full_reject_witness :
    F2.fifo_push (F2.run (F2.mkFifo 1) [F2.Op.push "a" true]) (some "b") true =
      (0, F2.run (F2.mkFifo 1) [F2.Op.push "a" true]) ∧
    (F2.fifo_push
      (F2.fifo_pull (F2.run (F2.mkFifo 1) [F2.Op.push "a" true])).2
      (some "b") true).1 = 1 := by
  have h := claim_C3_full_reject 1 (F2.run (F2.mkFifo 1) [F2.Op.push "a" true])
    ⟨[F2.Op.push "a" true], rfl⟩ (by decide)
  exact ⟨h.1 "b" true, h.2 "a" _ (by decide) "b"⟩


/-! ## Claim C4: state invariants -/

/-- C4 counterexample.  The capacity-0 buffer of the "Modified" variant
is reachable (it is the constructed state) and has occupancy 0 with
`is_empty = false`, refuting "is_empty is true iff occupancy is 0". -/
theorem claim_C4_counterexample :
    F2.Reachable 0 (F2.mkFifo 0) ∧ liveCount (F2.mkFifo 0) = 0 ∧
      (F2.mkFifo 0).empty = false :=
  ⟨⟨[], rfl⟩, by decide, by decide⟩

/-- C4 amended.  In every reachable state of the "Modified" variant:
occupancy is at most the capacity; `write_index = read_index` iff the
occupancy is 0 or the capacity; `is_empty` iff occupancy 0 holds whenever
the capacity is positive; a capacity-0 buffer instead has `is_empty`
permanently false with occupancy 0. -/
theorem claim_C4_invariants_amended (c : Nat) (f : Fifo)
    (hr : F2.Reachable c f) :
    liveCount f ≤ c ∧
    (f.produce = f.consume ↔ (liveCount f = 0 ∨ liveCount f = c)) ∧
    (0 < c → (f.empty = true ↔ liveCount f = 0)) ∧
    (c = 0 → f.empty = false ∧ liveCount f = 0) := by
  by_cases hc : 0 < c
  · obtain ⟨q, hq⟩ := f2_reach_inv hc hr
    have hl := inv_liveCount hq
    have hqc := hq.hqc
    refine ⟨by omega, ?_, fun _ => ?_, fun h0 => by omega⟩
    · rw [hl]
      exact inv_pc_iff hq hc
    · rw [hl]
      exact inv_empty_iff hq hc
  · have hc0 : c = 0 := by omega
    subst hc0
    have hf := f2_reach_zero hr
    subst hf
    refine ⟨by decide, by decide, by omega, fun _ => ⟨by decide, by decide⟩⟩

/-- Witness for the amended C4 at the constructed capacity-3 buffer. -/
theorem claim_C4_invariants_witness :
    liveCount (F2.mkFifo 3) ≤ 3 ∧
    ((F2.mkFifo 3).produce = (F2.mkFifo 3).consume ↔
      (liveCount (F2.mkFifo 3) = 0 ∨ liveCount (F2.mkFifo 3) = 3)) ∧
    (0 < 3 → ((F2.mkFifo 3).empty = true ↔ liveCount (F2.mkFifo 3) = 0)) ∧
    (3 = 0 → (F2.mkFifo 3).empty = false ∧ liveCount (F2.mkFifo 3) = 0) :=
  claim_C4_invariants_amended 3 (F2.mkFifo 3) ⟨[], rfl⟩

/-! ## Claim C5: construction -/

/-- C5 counterexample.  `fifo_new 0` of the "Modified" variant succeeds
but marks the buffer non-empty (`empty = 0`), refuting "is_empty = true
when capacity is 0". -/
theorem claim_C5_counterexample :
    F2.fifo_new 0 = some (F2.mkFifo 0) ∧ (F2.mkFifo 0).empty = false := by
  refine ⟨by decide, by decide⟩

/-- C5 amended.  Construction with a negative capacity fails in both
variants with no allocation; construction with capacity `n ≥ 0` succeeds
with `write_index = read_index = 0` in both, with `is_empty = true` in
the `fifo_filled` variant for every such `n`, but in the "Modified"
variant `is_empty = true` holds exactly when `n > 0` (the capacity-0
buffer is marked permanently full). -/
theorem claim_C5_construct_amended (n : Int) :
    (n < 0 → F2.fifo_new n = none ∧ F1.fifo_new n = none) ∧
    (0 ≤ n → ∃ f2 f1 : Fifo,
      F2.fifo_new n = some f2 ∧ F1.fifo_new n = some f1 ∧
      f2.produce = 0 ∧ f2.consume = 0 ∧ (f2.empty = true ↔ 0 < n) ∧
      f1.produce = 0 ∧ f1.consume = 0 ∧ f1.empty = true) := by
  constructor
  · intro hneg
    unfold F2.fifo_new F1.fifo_new
    rw [if_pos hneg, if_pos hneg]
    exact ⟨rfl, rfl⟩
  · intro hpos
    refine ⟨F2.mkFifo n.toNat, F1.mkFifo n.toNat, ?_, ?_, rfl, rfl, ?_, rfl,
      rfl, rfl⟩
    · unfold F2.fifo_new
      rw [if_neg (by omega)]
    · unfold F1.fifo_new
      rw [if_neg (by omega)]
    · show decide (0 < n.toNat) = true ↔ 0 < n
      rw [decide_eq_true_iff]
      omega

/-- Witness for the amended C5 at capacities -1, 0 and 2. -/
theorem claim_C5_construct_witness :
    (F2.fifo_new (-1) = none ∧ F1.fifo_new (-1) = none) ∧
    (∃ f2 f1 : Fifo,
      F2.fifo_new 0 = some f2 ∧ F1.fifo_new 0 = some f1 ∧
      f2.produce = 0 ∧ f2.consume = 0 ∧ (f2.empty = true ↔ 0 < (0 : Int)) ∧
      f1.produce = 0 ∧ f1.consume = 0 ∧ f1.empty = true) ∧
    (∃ f2 f1 : Fifo,
      F2.fifo_new 2 = some f2 ∧ F1.fifo_new 2 = some f1 ∧
      f2.produce = 0 ∧ f2.consume = 0 ∧ (f2.empty = true ↔ 0 < (2 : Int)) ∧
      f1.produce = 0 ∧ f1.consume = 0 ∧ f1.empty = true) :=
  ⟨(claim_C5_construct_amended (-1)).1 (by decide),
   (claim_C5_construct_amended 0).2 (by decide),
   (claim_C5_construct_amended 2).2 (by decide)⟩

/-! ## Claim C6: the capacity-0 buffer is permanently dead -/

/-- C6.  After any sequence of operations on a capacity-0 buffer of the
"Modified" variant, every push (with or without allocation success)
returns 0 leaving the state unchanged, and every pull returns the
empty-indicator leaving the state unchanged. -/
theorem claim_C6_cap_zero (ops : List F2.Op) (v : String) (ok : Bool) :
    F2.fifo_push (F2.run (F2.mkFifo 0) ops) (some v) ok =
      (0, F2.run (F2.mkFifo 0) ops) ∧
    F2.fifo_pull (F2.run (F2.mkFifo 0) ops) =
      (none, F2.run (F2.mkFifo 0) ops) := by
  rw [f2_run_zero ops]
  exact ⟨f2_push_some_zero v ok, f2_pull_zero⟩

/-! ## Claim C9: push with the null sentinel is a pure query -/

/-- C9 counterexample.  Pushing the null sentinel into an empty
capacity-2 buffer of the "Modified" variant returns 1, not the free
space `capacity - occupancy = 2` the claim demands (it does not mutate). -/
theorem claim_C9_counterexample :
    F2.fifo_push (F2.mkFifo 2) none true = (1, F2.mkFifo 2) ∧
      liveCount (F2.mkFifo 2) = 0 := by
  refine ⟨by decide, by decide⟩

/-- C9 amended.  A null-sentinel push never mutates; the `fifo_filled`
variant returns `capacity - occupancy`, while the "Modified" variant
returns the 0/1 flag: 1 exactly when the buffer has room (occupancy below
a positive capacity), else 0. -/
theorem claim_C9_null_query_amended :
    (∀ (c : Nat) (f : Fifo), F1.Reachable c f →
      F1.fifo_push f none = ((c : Int) - (liveCount f : Int), f)) ∧
    (∀ (c : Nat) (f : Fifo) (ok : Bool), F2.Reachable c f →
      F2.fifo_push f none ok =
        ((if liveCount f < c ∧ 0 < c then 1 else 0 : Int), f)) := by
  constructor
  · intro c f hr
    by_cases hc : 0 < c
    · obtain ⟨q, hq⟩ := f1_reach_inv hc hr
      rw [inv_liveCount hq]
      exact f1_push_none hq
    · have hc0 : c = 0 := by omega
      subst hc0
      have hf := f1_reach_zero hr
      subst hf
      rw [f1_push_none_zero]
      refine Prod.ext ?_ rfl
      show (0 : Int) = (0 : Int) - (liveCount (F1.mkFifo 0) : Int)
      decide
  · intro c f ok hr
    by_cases hc : 0 < c
    · obtain ⟨q, hq⟩ := f2_reach_inv hc hr
      have hl := inv_liveCount hq
      by_cases hlt : q.length < c
      · have hcond : f.consume ≠ f.produce ∨
            (0 < f.size ∧ f.consume = f.produce ∧ f.empty = true) := by
          by_cases hcp : f.consume = f.produce
          · refine Or.inr ⟨by rw [hq.size_eq]; exact hc, hcp, ?_⟩
            have h0 : q.length = 0 := by
              rcases (inv_pc_iff hq hc).mp hcp.symm with h0 | hfull
              · exact h0
              · omega
            exact (inv_empty_iff hq hc).mpr h0
          · exact Or.inl hcp
        unfold F2.fifo_push
        rw [if_pos hcond, if_pos (by omega)]
      · have hfull : q.length = c := by
          have := hq.hqc
          omega
        have hcp : f.produce = f.consume := (inv_pc_iff hq hc).mpr (Or.inr hfull)
        have hem : f.empty = false := by
          cases hem2 : f.empty
          · rfl
          · have := (inv_empty_iff hq hc).mp hem2
            omega
        have hcond : ¬(f.consume ≠ f.produce ∨
            (0 < f.size ∧ f.consume = f.produce ∧ f.empty = true)) := by
          push_neg
          refine ⟨hcp.symm, fun _ _ => ?_⟩
          rw [hem]
          simp
        unfold F2.fifo_push
        rw [if_neg hcond, if_neg (by omega)]
    · have hc0 : c = 0 := by omega
      subst hc0
      have hf := f2_reach_zero hr
      subst hf
      rw [f2_push_none_zero ok, if_neg (by omega)]

/-- Witness for the amended C9 on empty capacity-2 buffers. -/
theorem claim_C9_null_query_witness :
    F1.fifo_push (F1.mkFifo 2) none =
      ((2 : Int) - (liveCount (F1.mkFifo 2) : Int), F1.mkFifo 2) ∧
    F2.fifo_push (F2.mkFifo 2) none true =
      ((if liveCount (F2.mkFifo 2) < 2 ∧ 0 < 2 then 1 else 0 : Int),
        F2.mkFifo 2) :=
  ⟨claim_C9_null_query_amended.1 2 (F1.mkFifo 2) ⟨[], rfl⟩,
   claim_C9_null_query_amended.2 2 (F2.mkFifo 2) true ⟨[], rfl⟩⟩

/-! ## Claim C10: allocation failure during push -/

/-- C10 counterexample.  On an empty capacity-1 buffer of the "Modified"
variant, a push whose string-copy allocation fails leaves the buffer
unchanged but returns 1 — exactly the value a successful push returns, so
the failure is not distinguishable from success through the return
value (the claim demands the constructor's failure signal). -/
theorem claim_C10_counterexample :
    F2.fifo_push (F2.mkFifo 1) (some "a") false = (1, F2.mkFifo 1) ∧
    (F2.fifo_push (F2.mkFifo 1) (some "a") true).1 = 1 := by
  refine ⟨by decide, by decide⟩

/-- C10 amended.  When the allocation of the string copy fails, the
"Modified" push is a complete no-op on the buffer (the prior state is
fully preserved), but it returns the same space value as the successful
push of the same string would, so the return value does not distinguish
the failure (only the stderr diagnostic does). -/
theorem claim_C10_alloc_fail_amended (f : Fifo) (v : String) :
    (F2.fifo_push f (some v) false).2 = f ∧
    (F2.fifo_push f (some v) false).1 = (F2.fifo_push f (some v) true).1 := by
  unfold F2.fifo_push
  split <;> simp

/-! ## Claim C8: fifo_filled -/

/-- C8.  After any sequence of pushes and pulls on a buffer of the
`fifo_filled` variant, `fifo_filled` (computed only from the two indices
and the flag, never scanning the slots) equals the actual number of
populated slots, equals successful pushes minus successful pulls, and
lies in `[0, capacity]`. -/
theorem claim_C8_filled_correct (c : Nat) (ops : List F1.Op) :
    F1.fifo_filled (F1.runCount (F1.mkFifo c) ops 0 0).1 =
      (liveCount (F1.runCount (F1.mkFifo c) ops 0 0).1 : Int) ∧
    F1.fifo_filled (F1.runCount (F1.mkFifo c) ops 0 0).1 =
      ((F1.runCount (F1.mkFifo c) ops 0 0).2.1 : Int) -
        ((F1.runCount (F1.mkFifo c) ops 0 0).2.2 : Int) ∧
    0 ≤ F1.fifo_filled (F1.runCount (F1.mkFifo c) ops 0 0).1 ∧
    F1.fifo_filled (F1.runCount (F1.mkFifo c) ops 0 0).1 ≤ (c : Int) := by
  by_cases hc : 0 < c
  · obtain ⟨q', hq', harith⟩ := f1_runCount_inv hc ops (F1.mkFifo c) [] 0 0
      (by rw [f1_mkFifo_eq]; exact inv_init c hc)
    have hfl := f1_filled_eq hq'
    have hlc := inv_liveCount hq'
    have hb := hq'.hqc
    simp only [List.length_nil] at harith
    refine ⟨by rw [hfl, hlc], by rw [hfl]; omega, by rw [hfl]; omega,
      by rw [hfl]; omega⟩
  · have hc0 : c = 0 := by omega
    subst hc0
    rw [f1_runCount_zero ops 0 0]
    refine ⟨by decide, by decide, by decide, by decide⟩

/-! ## The reclamation loop of the "Modified" fifo_free -/

theorem f2_freeLoop_run (contents : List (Option String)) (c stop : Nat)
    (hc : 0 < c) (hstop : stop < c) :
    ∀ k : Nat, k ≤ c →
      ∀ (curr : Nat) (empty : Bool) (acc : List Nat) (fuel : Nat),
        curr < c → stop = (curr + k) % c → (empty = true ↔ k = 0) →
        k ≤ fuel →
        F2.freeLoop contents c stop fuel curr empty acc =
          some (acc ++ ((List.range k).map (fun j => (curr + j) % c)).filter
            (fun i => (contents.getD i none).isSome)) := by
  intro k
  induction k with
  | zero =>
    intro _ curr empty acc fuel hcurr hstop' hempk _
    have he : empty = true := hempk.mpr rfl
    have hcs : curr = stop := by
      rw [hstop']
      simp [Nat.mod_eq_of_lt hcurr]
    have hcond : ¬(curr ≠ stop ∨ empty = false) := by
      push_neg
      exact ⟨hcs, by rw [he]; simp⟩
    cases fuel with
    | zero =>
      show (if curr ≠ stop ∨ empty = false then none else some acc) = _
      rw [if_neg hcond]
      simp
    | succ fu =>
      show (if curr ≠ stop ∨ empty = false then _ else some acc) = _
      rw [if_neg hcond]
      simp
  | succ k ih =>
    intro hkc curr empty acc fuel hcurr hstop' hempk hfuel
    have he : empty = false := by
      cases hemp2 : empty
      · rfl
      · exact absurd (hempk.mp hemp2) (by omega)
    cases fuel with
    | zero => omega
    | succ fu =>
      have hcond : curr ≠ stop ∨ empty = false := Or.inr he
      show (if curr ≠ stop ∨ empty = false then
          if curr < c then
            F2.freeLoop contents c stop fu ((curr + 1) % c)
              (if (curr + 1) % c = stop then true else empty)
              (if (contents.getD curr none).isSome then acc ++ [curr] else acc)
          else none
        else some acc) = _
      rw [if_pos hcond, if_pos hcurr]
      have hcurr' : (curr + 1) % c < c := Nat.mod_lt _ hc
      have hstop2 : stop = ((curr + 1) % c + k) % c := by
        rw [Nat.mod_add_mod, hstop']
        congr 1
        omega
      have hempk2 : (if (curr + 1) % c = stop then true else empty) = true ↔
          k = 0 := by
        by_cases hce : (curr + 1) % c = stop
        · rw [if_pos hce]
          have h1 : ((curr + 1) + 0) % c = ((curr + 1) + k) % c := by
            rw [Nat.add_zero, hce, hstop2, Nat.mod_add_mod]
          have := mod_add_inj c (curr + 1) 0 k hc (by omega) h1
          simp
          omega
        · rw [if_neg hce, he]
          constructor
          · intro hx
            exact absurd hx (by simp)
          · intro hk0
            refine absurd ?_ hce
            rw [hstop2, hk0]
            simp [Nat.mod_eq_of_lt hcurr']
      have hrec := ih (by omega) ((curr + 1) % c)
        (if (curr + 1) % c = stop then true else empty)
        (if (contents.getD curr none).isSome then acc ++ [curr] else acc)
        fu hcurr' hstop2 hempk2 (by omega)
      rw [hrec]
      have hlist : (List.range (k + 1)).map (fun j => (curr + j) % c) =
          curr :: (List.range k).map (fun j => ((curr + 1) % c + j) % c) := by
        rw [List.range_succ_eq_map, List.map_cons, List.map_map]
        congr 1
        · show (curr + 0) % c = curr
          simp [Nat.mod_eq_of_lt hcurr]
        · refine List.map_congr_left ?_
          intro j hj
          show (curr + (j + 1)) % c = ((curr + 1) % c + j) % c
          rw [Nat.mod_add_mod]
          congr 1
          omega
      have hfin : (if (contents.getD curr none).isSome
            then acc ++ [curr] else acc) ++
          ((List.range k).map (fun j => ((curr + 1) % c + j) % c)).filter
            (fun i => (contents.getD i none).isSome) =
          acc ++ ((curr ::
              (List.range k).map (fun j => ((curr + 1) % c + j) % c)).filter
            (fun i => (contents.getD i none).isSome)) := by
        by_cases hsome : (contents.getD curr none).isSome
        · rw [if_pos hsome, List.filter_cons_of_pos (by exact hsome)]
          simp
        · rw [if_neg hsome,
            List.filter_cons_of_neg (by simpa using hsome)]
      rw [hfin, ← hlist]

theorem inv_full_isSome {c : Nat} {f : Fifo} {q : List String}
    (h : RingInv c f q) (hc : 0 < c) (hfull : q.length = c) :
    ∀ i, i < c → (f.contents.getD i none).isSome = true := by
  intro i hi
  have e1 : f.consume + (c + i - f.consume) = c + i := by
    have := h.hcc
    omega
  have hkey : i = (f.consume + (c + i - f.consume) % c) % c := by
    calc i = (c + i) % c := by rw [Nat.add_mod_left, Nat.mod_eq_of_lt hi]
    _ = (f.consume + (c + i - f.consume)) % c := by rw [e1]
    _ = (f.consume + (c + i - f.consume) % c) % c := (Nat.add_mod_mod _ _ _).symm
  have hklt : (c + i - f.consume) % c < q.length := by
    rw [hfull]
    exact Nat.mod_lt _ hc
  have := h.inside ((c + i - f.consume) % c) hklt
  rw [← hkey] at this
  rw [this]
  rfl

/-- For every well-formed buffer of positive capacity, the "Modified"
`fifo_free` terminates within its fuel, touches no slot outside
`[0, capacity)`, performs no modulo by zero, and releases exactly the
currently populated slots, each exactly once. -/
theorem f2_free_occupied {c : Nat} {f : Fifo} {q : List String}
    (h : RingInv c f q) (hc : 0 < c) :
    ∃ l, F2.fifo_free (some f) = some l ∧ l.Nodup ∧
      ∀ i, i ∈ l ↔ (f.contents.getD i none).isSome = true := by
  by_cases hcp : f.consume = f.produce ∧ f.empty = false
  · -- the full-buffer reset: walk all `c` slots from index 0
    have hfull : q.length = c := by
      rcases (inv_pc_iff h hc).mp hcp.1.symm with h0 | hf
      · have := (inv_empty_iff h hc).mpr h0
        rw [this] at hcp
        exact absurd hcp.2 (by simp)
      · exact hf
    have hrun := f2_freeLoop_run f.contents c 0 hc hc c (le_refl c) 0 f.empty
      [] (c + 1) hc (by rw [Nat.zero_add, Nat.mod_self])
      (by rw [hcp.2]; constructor
          · intro hx
            exact absurd hx (by simp)
          · intro hx
            omega)
      (by omega)
    have heq : F2.fifo_free (some f) =
        some ([] ++ List.filter (fun i => (f.contents.getD i none).isSome)
          (List.map (fun j => (0 + j) % c) (List.range c))) := by
      simp only [F2.fifo_free]
      rw [if_pos hcp, if_pos hcp, h.size_eq]
      exact hrun
    refine ⟨_, heq, ?_, ?_⟩
    · refine List.Nodup.filter _ (List.Nodup.map_on ?_ (List.nodup_range c))
      intro x hx y hy hxy
      exact mod_add_inj c 0 x y (List.mem_range.mp hx) (List.mem_range.mp hy)
        hxy
    · intro i
      simp only [List.nil_append, List.mem_filter]
      constructor
      · intro hmem
        exact hmem.2
      · intro hp
        have hi : i < c := by
          by_contra hge
          have : f.contents.getD i none = none :=
            getD_ge f.contents i (by rw [h.len_eq]; omega)
          rw [this] at hp
          simp at hp
        refine ⟨List.mem_map.mpr ⟨i, List.mem_range.mpr hi, ?_⟩, hp⟩
        rw [Nat.zero_add, Nat.mod_eq_of_lt hi]
  · -- no reset: walk the `q.length` occupied slots from `consume`
    have hrun := f2_freeLoop_run f.contents c f.produce hc h.hp q.length
      h.hqc f.consume f.empty [] (c + 1) h.hcc (inv_produce_eq h)
      (inv_empty_iff h hc) (by have := h.hqc; omega)
    have heq : F2.fifo_free (some f) =
        some ([] ++ List.filter (fun i => (f.contents.getD i none).isSome)
          (List.map (fun j => (f.consume + j) % c) (List.range q.length))) := by
      simp only [F2.fifo_free]
      rw [if_neg hcp, if_neg hcp, h.size_eq]
      exact hrun
    refine ⟨_, heq, ?_, ?_⟩
    · refine List.Nodup.filter _
        (List.Nodup.map_on ?_ (List.nodup_range q.length))
      intro x hx y hy hxy
      have hxc : x < c := by
        have := List.mem_range.mp hx
        have := h.hqc
        omega
      have hyc : y < c := by
        have := List.mem_range.mp hy
        have := h.hqc
        omega
      exact mod_add_inj c f.consume x y hxc hyc hxy
    · intro i
      simp only [List.nil_append, List.mem_filter]
      constructor
      · intro hmem
        exact hmem.2
      · intro hp
        have hi : i < c := by
          by_contra hge
          have : f.contents.getD i none = none :=
            getD_ge f.contents i (by rw [h.len_eq]; omega)
          rw [this] at hp
          simp at hp
        have hj : ∃ j, j ∈ List.range q.length ∧ (f.consume + j) % c = i := by
          by_contra hno
          push_neg at hno
          have hnone : f.contents.getD i none = none := by
            refine h.outside i hi ?_
            intro k hk heq
            exact hno k (List.mem_range.mpr hk) heq.symm
          rw [hnone] at hp
          simp at hp
        exact ⟨List.mem_map.mpr hj, hp⟩

/-! ## Claim C7: fifo_free -/

/-- C7.  The "Modified" `fifo_free` is a no-op on a null buffer, but on
the buffer built by `fifo_new(0)` (where `consume == produce == 0` and
`empty == 0`) its reclamation loop is entered and reaches undefined
behaviour: it reads `contents[0]` of a zero-length slot array and
computes `(curr + 1) % size` with `size == 0` — the instrumented model
returns `none` for that undefined behaviour. -/
theorem claim_C7_free_cap_zero :
    F2.fifo_free (some (F2.mkFifo 0)) = none ∧ F2.fifo_free none = some [] := by
  refine ⟨by decide, rfl⟩
